import Mathlib

/-!
Verification of the incremental lexer core of the proto-jo repository.

The development shallowly embeds the lexer found in src/pass/lexer/index.js
together with the State class from src/pass/lexer/state. Collaborator
modules that are not part of the sources (the character cursor; the
Position and Location value types; the token records; the error types)
are modelled from the specification, as noted on each definition.

The driver loop of the lexer is not structurally recursive (a branch
function may leave the current character unconsumed and re-dispatch it
under a different branch), so the loop is defined with explicit fuel and
a measure that bounds the number of dispatches; sufficiency of the fuel
is proved below, giving an unconditional unfolding equation for the
fuel-free wrapper.
-/

namespace ProtoJo

/-- Modelled from the spec (section 3); the Position value type from the
location module is not under src/. A position tracks 0-based line and
column; shiftWith increments the line and resets the column on a newline
character, and otherwise increments the column. -/
structure Position where
  line : Nat
  column : Nat
deriving DecidableEq, Repr

def Position.init : Position := ⟨0, 0⟩

def Position.shiftWith (p : Position) (c : Char) : Position :=
  if c = '\n' then ⟨p.line + 1, 0⟩ else ⟨p.line, p.column + 1⟩

/-- Modelled from the spec (section 3); the Location value type from the
location module is not under src/. A location is a span between two
positions. -/
structure Location where
  start : Position
  «end» : Position
deriving DecidableEq, Repr

def Location.create (start fin : Position) : Location := ⟨start, fin⟩

/-- Modelled from the spec (section 3) and the cursor test in
test/core/stream.test.js; the stream module itself is not under src/.
The cursor is an immutable view of the remaining characters of one
chunk of text. -/
structure Stream where
  chars : List Char
deriving DecidableEq, Repr

def Stream.current (s : Stream) : Option Char := s.chars.head?

def Stream.shiftForward (s : Stream) : Stream := ⟨s.chars.tail⟩

def Stream.done (s : Stream) : Bool := s.current.isNone

/-- Modelled from the spec (section 3); the stream module is not under
src/. Builds a cursor over the characters of one chunk of text. -/
def withIterable (text : String) : Stream := ⟨text.data⟩

/-- Modelled from the spec (section 3); the token records of the
lex-token module are not under src/. -/
inductive Token where
  | leftParen (location : Location)
  | rightParen (location : Location)
  | identifier (text : String) (location : Location)
  | string (content : String) (location : Location)
  | whitespace (count : Nat) (location : Location)
deriving DecidableEq, Repr

/-- Modelled from the spec (section 7); the error module is not under
src/. -/
inductive LexError where
  | emptyInput
  | unexpectedChar (character : Char)
deriving DecidableEq, Repr

/-- Defunctionalized tag for the four branch functions stored in the
lexer state (the source stores the branch function itself). -/
inductive Branch where
  | init
  | id
  | str
  | ws
deriving DecidableEq, Repr

/-- The State class of src/pass/lexer/state: cursor, active branch,
pending buffer and the buffer's start and end positions. -/
structure State where
  stream : Stream
  branch : Branch
  buffer : String
  bufStart : Position
  bufEnd : Position
deriving DecidableEq, Repr

def State.create (stream : Stream) (branch : Branch) : State :=
  { stream := stream, branch := branch, buffer := ""
    bufStart := Position.init, bufEnd := Position.init }

def State.enqueued (s : State) : String := s.buffer

def State.location (s : State) : Location := Location.create s.bufStart s.bufEnd

def State.current (s : State) : Option Char := s.stream.current

def State.dropBuffer (s : State) : State :=
  { s with buffer := "", bufStart := s.bufEnd }

def State.shiftForward (s : State) : State :=
  match s.current with
  | some c =>
    { s with stream := s.stream.shiftForward
             buffer := s.buffer.push c
             bufEnd := s.bufEnd.shiftWith c }
  | none => s

def State.setBranch (s : State) (branch : Branch) : State :=
  { s with branch := branch }

/-- Modelled from the spec (section 4.5); addInput is called by withState
in src/pass/lexer/index.js but its definition is not under src/: it
splices a fresh cursor into the carried-over residual state, replacing
only the cursor and preserving branch, buffer and positions. -/
def State.addInput (s : State) (stream : Stream) : State :=
  { s with stream := stream }

/-- Character class of the anchored regex for a-z and A-Z in
src/pass/lexer/index.js. -/
def isAlpha (character : Char) : Bool :=
  ('a' ≤ character && character ≤ 'z') || ('A' ≤ character && character ≤ 'Z')

/-- Character class of the anchored regex for a-z, A-Z, 0-9 and hyphen in
src/pass/lexer/index.js. -/
def isIdChar (character : Char) : Bool :=
  isAlpha character || ('0' ≤ character && character ≤ '9') || character = '-'

/-- Character class of the whitespace regex in src/pass/lexer/index.js;
the regex tests a single character against the JavaScript whitespace
class, which contains the characters listed here. -/
def isWhitespace (character : Char) : Bool :=
  character = ' ' || character = '\t' || character = '\n' ||
  character = '\x0b' || character = '\x0c' || character = '\r' ||
  character = '\u00A0' || character = '\u1680' ||
  (0x2000 ≤ character.toNat && character.toNat ≤ 0x200A) ||
  character = '\u2028' || character = '\u2029' || character = '\u202F' ||
  character = '\u205F' || character = '\u3000' || character = '\uFEFF'

/-- The Init branch of src/pass/lexer/index.js. A branch function either
emits a list of tokens and returns the next state, or fails. -/
def branchInit (character : Char) (state : State) :
    Except LexError (List Token × State) :=
  if isWhitespace character then
    .ok ([], state.setBranch .ws)
  else if isAlpha character then
    .ok ([], (state.shiftForward).setBranch .id)
  else if character = '"' then
    .ok ([], ((state.shiftForward).dropBuffer).setBranch .str)
  else if character = ')' then
    let shifted := state.shiftForward
    let location := shifted.location
    .ok ([Token.rightParen location], shifted.dropBuffer)
  else if character = '(' then
    let shifted := state.shiftForward
    let location := shifted.location
    .ok ([Token.leftParen location], shifted.dropBuffer)
  else
    .error (LexError.unexpectedChar character)

/-- The Identifier branch of src/pass/lexer/index.js. -/
def branchId (character : Char) (state : State) :
    Except LexError (List Token × State) :=
  if isIdChar character then
    .ok ([], state.shiftForward)
  else
    let repr := state.enqueued
    let location := state.location
    .ok ([Token.identifier repr location], (state.dropBuffer).setBranch .init)

/-- The String branch of src/pass/lexer/index.js. -/
def branchString (character : Char) (state : State) :
    Except LexError (List Token × State) :=
  if character ≠ '"' then
    .ok ([], state.shiftForward)
  else
    let content := state.enqueued
    let shifted := state.shiftForward
    let location := shifted.location
    .ok ([Token.string content location], (shifted.dropBuffer).setBranch .init)

/-- The Whitespace branch of src/pass/lexer/index.js. -/
def branchWS (character : Char) (state : State) :
    Except LexError (List Token × State) :=
  if isWhitespace character then
    .ok ([], state.shiftForward)
  else
    let nchars := state.enqueued.length
    let lchars := state.location
    .ok ([Token.whitespace nchars lchars], (state.dropBuffer).setBranch .init)

/-- Dispatch of the stored branch function, as in State.withBranch of
src/pass/lexer/state. -/
def State.withBranch (state : State) (character : Char) :
    Except LexError (List Token × State) :=
  match state.branch with
  | .init => branchInit character state
  | .id => branchId character state
  | .str => branchString character state
  | .ws => branchWS character state

/-- Weight of a pending dispatch: a branch function may hand the same
character back to another branch without consuming it, but only along
the chains Identifier to Init, Whitespace to Init and Init to
Whitespace, so a character-dependent weight bounds the number of
dispatches between consumptions. -/
def branchExtra (branch : Branch) (c : Char) : Nat :=
  match branch with
  | .init => if isWhitespace c then 2 else 0
  | .ws => if isWhitespace c then 0 else 1
  | .id => 3
  | .str => 0

/-- Termination measure for the driver loop: four units per remaining
character plus the weight of the pending dispatch. -/
def State.measure (s : State) : Nat :=
  4 * s.stream.chars.length +
    (match s.stream.chars.head? with
     | none => 0
     | some c => branchExtra s.branch c)

/-- Fuelled form of the driver loop of src/pass/lexer/index.js: dispatch
the active branch on the current character until the cursor is
exhausted, collecting emitted tokens; none means the fuel ran out. -/
def loopF : Nat → State → Option (List Token × Except LexError State)
  | 0, _ => none
  | fuel + 1, state =>
    match state.current with
    | none => some ([], .ok state)
    | some c =>
      match state.withBranch c with
      | .error e => some ([], .error e)
      | .ok (ts, update) =>
        match loopF fuel update with
        | none => none
        | some (ts', r) => some (ts ++ ts', r)

/-- The driver loop of src/pass/lexer/index.js: the measure plus one is
always enough fuel (proved below), so the default branch is dead code.
The loop returns the tokens emitted before termination together with
either the residual state or the error that aborted the run. -/
def loop (state : State) : List Token × Except LexError State :=
  (loopF (state.measure + 1) state).getD ([], .ok state)

/-- The withState entry point of src/pass/lexer/index.js: feed one chunk
of input into the carried-over state and run the driver loop. -/
def withState (state : State) (stream : Stream) :
    List Token × Except LexError State :=
  loop (state.addInput stream)

/-- The initialState entry point of src/pass/lexer/index.js. -/
def initialState : State := State.create (withIterable "") .init

/-- The chunk scheduler of src/pass/lexer/index.js. A pull either carries
a chunk value (some) or a done-false resolution whose value is absent
(none); the end of the list is the done-true resolution. The scheduler
returns all tokens emitted before completion or failure, and the error
if one aborted the run. -/
def asyncLoop (state : State) (iterator : List (Option String)) :
    List Token × Option LexError :=
  match iterator with
  | [] => ([], none)
  | none :: _ => ([], some LexError.emptyInput)
  | some value :: rest =>
    match withState state (withIterable value) with
    | (ts, .error e) => (ts, some e)
    | (ts, .ok update) =>
      let (ts', r) := asyncLoop update rest
      (ts ++ ts', r)

/-- The tokenStream entry point of src/pass/lexer/index.js. -/
def tokenStream (input : List (Option String)) : List Token × Option LexError :=
  asyncLoop initialState input

/-- Strict order on positions: consuming a character always moves the
position strictly forward in this order. -/
def Position.ltB (p q : Position) : Prop :=
  p.line < q.line ∨ (p.line = q.line ∧ p.column < q.column)

/-- Position reached after consuming a list of characters starting
from p. -/
def posAfterFrom (p : Position) (l : List Char) : Position :=
  l.foldl Position.shiftWith p

/-- Position reached after consuming a list of characters from the
initial position. -/
def posAfter (l : List Char) : Position := posAfterFrom Position.init l

/-- Running positions at each boundary of the input, starting at p: one
entry before each character plus one after the last. -/
def positionsFrom (p : Position) : List Char → List Position
  | [] => [p]
  | c :: cs => p :: positionsFrom (p.shiftWith c) cs

/-- Index of the first occurrence of a position in a list of positions
(the length of the list when the position is absent). -/
def posIndexAux (p : Position) : List Position → Nat
  | [] => 0
  | q :: qs => if q = p then 0 else posIndexAux p qs + 1

/-- Modelled from the spec (round-trip property of section 8): the index
in the input text at which a given position occurs. -/
def posIndex (input : List Char) (p : Position) : Nat :=
  posIndexAux p (positionsFrom Position.init input)

/-- Modelled from the spec (round-trip property of section 8): the
source-text span of the input delimited by a location, from its start
position to its end position. -/
def spanOf (input : List Char) (loc : Location) : List Char :=
  (input.take (posIndex input loc.«end»)).drop (posIndex input loc.start)

/-- Modelled from the spec (round-trip property of section 8): the text
contributed by one token, the source-text span for Whitespace,
Identifier and String tokens and the literal parenthesis characters for
the paren tokens. -/
def tokenText (input : List Char) : Token → List Char
  | .leftParen _ => ['(']
  | .rightParen _ => [')']
  | .identifier _ loc => spanOf input loc
  | .string _ loc => spanOf input loc
  | .whitespace _ loc => spanOf input loc

/-- Concatenated text of an emitted token sequence, per the round-trip
property exactly as the spec states it. -/
def roundTrip (input : List Char) (ts : List Token) : List Char :=
  (ts.map (tokenText input)).flatten

/-- Text contributed by one token under the amended round-trip property:
a String token contributes a literal opening quote before its span,
because its span begins only after the opening quote (which the lexer
consumes and then discards from the buffer). -/
def tokenTextQ (input : List Char) : Token → List Char
  | .string _ loc => '"' :: spanOf input loc
  | t => tokenText input t

/-- Concatenated text of an emitted token sequence under the amended
round-trip property. -/
def roundTripQ (input : List Char) (ts : List Token) : List Char :=
  (ts.map (tokenTextQ input)).flatten

/-- Characters of the input strictly between index j and index k. -/
def sliceOf (input : List Char) (j k : Nat) : List Char :=
  (input.take k).drop j

/-- The buffer-position invariant of the State class: the buffer end
position is reached from the buffer start position by applying shiftWith
once per buffered character, in order. -/
def Coherent (s : State) : Prop :=
  s.bufEnd = s.buffer.data.foldl Position.shiftWith s.bufStart

/-- States reachable from the initial state by the public operations of
the State class, input splicing, and the branch functions. -/
inductive Reachable : State → Prop where
  | initial : Reachable initialState
  | shiftForward {s} : Reachable s → Reachable s.shiftForward
  | dropBuffer {s} : Reachable s → Reachable s.dropBuffer
  | setBranch {s} (b : Branch) : Reachable s → Reachable (s.setBranch b)
  | addInput {s} (st : Stream) : Reachable s → Reachable (s.addInput st)
  | withBranch {s c ts u} : Reachable s → s.withBranch c = .ok (ts, u) →
      Reachable u

/-- Branch-dependent accounting of a mid-run state: how much of the
input the text of the tokens emitted so far reconstructs, relative to
the pending buffer region from index j to index k (for the String
branch, the opening quote at index j minus one was consumed but
discarded from the buffer). -/
def BranchInv (input : List Char) (emitted : List Token) (b : Branch)
    (j k : Nat) : Prop :=
  match b with
  | .init => j = k ∧ roundTripQ input emitted = input.take k
  | .id => roundTripQ input emitted = input.take j
  | .ws => roundTripQ input emitted = input.take j
  | .str => 1 ≤ j ∧ input.take j = input.take (j - 1) ++ ['"'] ∧
            roundTripQ input emitted = input.take (j - 1)

/-- Coherence of a mid-run state with the original input text: the
cursor holds the input from index k on, the buffer holds the characters
from index j to index k, the buffer positions are the running positions
at those indices, and the text of the tokens emitted so far accounts for
the input up to the start of the pending region. -/
def RunInv (input : List Char) (emitted : List Token) (s : State) : Prop :=
  ∃ j k, j ≤ k ∧ k ≤ input.length ∧
    s.stream.chars = input.drop k ∧
    s.bufStart = posAfter (input.take j) ∧
    s.bufEnd = posAfter (input.take k) ∧
    s.buffer.data = sliceOf input j k ∧
    BranchInv input emitted s.branch j k

/-! Basic facts about the state operations. -/

@[simp] theorem setBranch_stream (s : State) (b : Branch) :
    (s.setBranch b).stream = s.stream := rfl

@[simp] theorem setBranch_branch (s : State) (b : Branch) :
    (s.setBranch b).branch = b := rfl

@[simp] theorem setBranch_buffer (s : State) (b : Branch) :
    (s.setBranch b).buffer = s.buffer := rfl

@[simp] theorem setBranch_bufStart (s : State) (b : Branch) :
    (s.setBranch b).bufStart = s.bufStart := rfl

@[simp] theorem setBranch_bufEnd (s : State) (b : Branch) :
    (s.setBranch b).bufEnd = s.bufEnd := rfl

@[simp] theorem dropBuffer_stream (s : State) : s.dropBuffer.stream = s.stream := rfl

@[simp] theorem dropBuffer_branch (s : State) : s.dropBuffer.branch = s.branch := rfl

@[simp] theorem dropBuffer_buffer (s : State) : s.dropBuffer.buffer = "" := rfl

@[simp] theorem dropBuffer_bufStart (s : State) :
    s.dropBuffer.bufStart = s.bufEnd := rfl

@[simp] theorem dropBuffer_bufEnd (s : State) : s.dropBuffer.bufEnd = s.bufEnd := rfl

@[simp] theorem addInput_stream (s : State) (st : Stream) :
    (s.addInput st).stream = st := rfl

@[simp] theorem addInput_branch (s : State) (st : Stream) :
    (s.addInput st).branch = s.branch := rfl

@[simp] theorem addInput_buffer (s : State) (st : Stream) :
    (s.addInput st).buffer = s.buffer := rfl

@[simp] theorem addInput_bufStart (s : State) (st : Stream) :
    (s.addInput st).bufStart = s.bufStart := rfl

@[simp] theorem addInput_bufEnd (s : State) (st : Stream) :
    (s.addInput st).bufEnd = s.bufEnd := rfl

@[simp] theorem enqueued_eq (s : State) : s.enqueued = s.buffer := rfl

@[simp] theorem location_eq (s : State) :
    s.location = Location.mk s.bufStart s.bufEnd := rfl

theorem current_eq (s : State) : s.current = s.stream.chars.head? := rfl

theorem current_of_cons {s : State} {c : Char} {rest : List Char}
    (hc : s.stream.chars = c :: rest) : s.current = some c := by
  simp [current_eq, hc]

theorem shiftForward_of_cons {s : State} {c : Char} {rest : List Char}
    (hc : s.stream.chars = c :: rest) :
    s.shiftForward =
      { s with stream := ⟨rest⟩, buffer := s.buffer.push c,
               bufEnd := s.bufEnd.shiftWith c } := by
  have hcur : s.current = some c := current_of_cons hc
  simp only [State.shiftForward, hcur]
  have : s.stream.shiftForward = ⟨rest⟩ := by simp [Stream.shiftForward, hc]
  rw [this]

theorem shiftForward_of_none {s : State} (hc : s.current = none) :
    s.shiftForward = s := by
  simp only [State.shiftForward, hc]

theorem shiftForward_branch (s : State) :
    s.shiftForward.branch = s.branch := by
  unfold State.shiftForward
  cases s.current <;> rfl

theorem shiftForward_bufStart (s : State) :
    s.shiftForward.bufStart = s.bufStart := by
  unfold State.shiftForward
  cases s.current <;> rfl

/-! Facts about the termination measure. -/

theorem branchExtra_le_three (b : Branch) (c : Char) : branchExtra b c ≤ 3 := by
  cases b <;> simp only [branchExtra] <;> (try split) <;> omega

theorem measure_of_cons {s : State} {c : Char} {rest : List Char}
    (hc : s.stream.chars = c :: rest) :
    s.measure = 4 * rest.length + 4 + branchExtra s.branch c := by
  simp only [State.measure, hc, List.head?_cons, List.length_cons]
  omega

theorem measure_le_of_chars {s : State} {l : List Char}
    (h : s.stream.chars = l) : s.measure ≤ 4 * l.length + 3 := by
  cases l with
  | nil => simp [State.measure, h]
  | cons c rest =>
    rw [measure_of_cons h]
    have := branchExtra_le_three s.branch c
    simp only [List.length_cons]
    omega

/-- Inversion of one dispatch of the stored branch function: the eleven
possible successful outcomes, one per row of the transition table. -/
theorem withBranch_inv {s : State} {c : Char} {ts : List Token} {u : State}
    (h : s.withBranch c = .ok (ts, u)) :
    (s.branch = .init ∧ isWhitespace c = true ∧ ts = [] ∧
      u = s.setBranch .ws) ∨
    (s.branch = .init ∧ isWhitespace c = false ∧ isAlpha c = true ∧ ts = [] ∧
      u = (s.shiftForward).setBranch .id) ∨
    (s.branch = .init ∧ isWhitespace c = false ∧ isAlpha c = false ∧
      c = '"' ∧ ts = [] ∧ u = ((s.shiftForward).dropBuffer).setBranch .str) ∨
    (s.branch = .init ∧ isWhitespace c = false ∧ isAlpha c = false ∧
      c ≠ '"' ∧ c = ')' ∧ ts = [Token.rightParen (s.shiftForward).location] ∧
      u = (s.shiftForward).dropBuffer) ∨
    (s.branch = .init ∧ isWhitespace c = false ∧ isAlpha c = false ∧
      c ≠ '"' ∧ c ≠ ')' ∧ c = '(' ∧
      ts = [Token.leftParen (s.shiftForward).location] ∧
      u = (s.shiftForward).dropBuffer) ∨
    (s.branch = .id ∧ isIdChar c = true ∧ ts = [] ∧ u = s.shiftForward) ∨
    (s.branch = .id ∧ isIdChar c = false ∧
      ts = [Token.identifier s.buffer (Location.mk s.bufStart s.bufEnd)] ∧
      u = (s.dropBuffer).setBranch .init) ∨
    (s.branch = .str ∧ c ≠ '"' ∧ ts = [] ∧ u = s.shiftForward) ∨
    (s.branch = .str ∧ c = '"' ∧
      ts = [Token.string s.buffer (s.shiftForward).location] ∧
      u = ((s.shiftForward).dropBuffer).setBranch .init) ∨
    (s.branch = .ws ∧ isWhitespace c = true ∧ ts = [] ∧ u = s.shiftForward) ∨
    (s.branch = .ws ∧ isWhitespace c = false ∧
      ts = [Token.whitespace s.buffer.length (Location.mk s.bufStart s.bufEnd)] ∧
      u = (s.dropBuffer).setBranch .init) := by
  cases hb : s.branch
  case init =>
    simp only [State.withBranch, hb, branchInit] at h
    split_ifs at h with h1 h2 h3 h4 h5
    · obtain ⟨rfl, rfl⟩ := by simpa using h
      exact Or.inl ⟨rfl, h1, rfl, rfl⟩
    · obtain ⟨rfl, rfl⟩ := by simpa using h
      refine Or.inr (Or.inl ⟨rfl, by simpa using h1, h2, rfl, rfl⟩)
    · obtain ⟨rfl, rfl⟩ := by simpa using h
      refine Or.inr (Or.inr (Or.inl ⟨rfl, by simpa using h1, by simpa using h2,
        h3, rfl, rfl⟩))
    · obtain ⟨rfl, rfl⟩ := by simpa using h
      refine Or.inr (Or.inr (Or.inr (Or.inl ⟨rfl, by simpa using h1,
        by simpa using h2, h3, h4, rfl, rfl⟩)))
    · obtain ⟨rfl, rfl⟩ := by simpa using h
      refine Or.inr (Or.inr (Or.inr (Or.inr (Or.inl ⟨rfl, by simpa using h1,
        by simpa using h2, h3, h4, h5, rfl, rfl⟩))))
  case id =>
    simp only [State.withBranch, hb, branchId] at h
    split_ifs at h with h1
    · obtain ⟨rfl, rfl⟩ := by simpa using h
      refine Or.inr (Or.inr (Or.inr (Or.inr (Or.inr (Or.inl ⟨rfl, h1, rfl, rfl⟩)))))
    · obtain ⟨rfl, rfl⟩ := by simpa using h
      refine Or.inr (Or.inr (Or.inr (Or.inr (Or.inr (Or.inr (Or.inl
        ⟨rfl, by simpa using h1, by simp [State.location], rfl⟩))))))
  case str =>
    simp only [State.withBranch, hb, branchString] at h
    split_ifs at h with h1
    · obtain ⟨rfl, rfl⟩ := by simpa using h
      refine Or.inr (Or.inr (Or.inr (Or.inr (Or.inr (Or.inr (Or.inr (Or.inl
        ⟨rfl, h1, rfl, rfl⟩)))))))
    · obtain ⟨rfl, rfl⟩ := by simpa using h
      refine Or.inr (Or.inr (Or.inr (Or.inr (Or.inr (Or.inr (Or.inr (Or.inr
        (Or.inl ⟨rfl, by simpa using h1, rfl, rfl⟩))))))))
  case ws =>
    simp only [State.withBranch, hb, branchWS] at h
    split_ifs at h with h1
    · obtain ⟨rfl, rfl⟩ := by simpa using h
      refine Or.inr (Or.inr (Or.inr (Or.inr (Or.inr (Or.inr (Or.inr (Or.inr
        (Or.inr (Or.inl ⟨rfl, h1, rfl, rfl⟩)))))))))
    · obtain ⟨rfl, rfl⟩ := by simpa using h
      refine Or.inr (Or.inr (Or.inr (Or.inr (Or.inr (Or.inr (Or.inr (Or.inr
        (Or.inr (Or.inr ⟨rfl, by simpa using h1, by simp [State.location], rfl⟩)))))))))

theorem chars_of_current_some {s : State} {c : Char} (h : s.current = some c) :
    ∃ rest, s.stream.chars = c :: rest := by
  rw [current_eq] at h
  cases hl : s.stream.chars with
  | nil => rw [hl] at h; cases h
  | cons a l =>
    rw [hl] at h
    simp only [List.head?_cons, Option.some.injEq] at h
    subst h
    exact ⟨l, rfl⟩

theorem chars_of_current_none {s : State} (h : s.current = none) :
    s.stream.chars = [] := by
  rw [current_eq] at h
  exact List.head?_eq_none_iff.mp h

theorem measure_lt_of_tail {s u : State} {c : Char} {rest : List Char}
    (hc : s.stream.chars = c :: rest) (hu : u.stream.chars = rest) :
    u.measure < s.measure := by
  have h1 := measure_le_of_chars hu
  have h2 := measure_of_cons hc
  omega

/-- Every successful dispatch strictly decreases the termination
measure. -/
theorem withBranch_measure_lt {s : State} {c : Char} {rest : List Char}
    {ts : List Token} {u : State}
    (hc : s.stream.chars = c :: rest) (h : s.withBranch c = .ok (ts, u)) :
    u.measure < s.measure := by
  rcases withBranch_inv h with
    ⟨hb, hw, -, rfl⟩ | ⟨hb, hw, ha, -, rfl⟩ | ⟨hb, hw, ha, hq, -, rfl⟩ |
    ⟨hb, hw, ha, hq, hrp, -, rfl⟩ | ⟨hb, hw, ha, hq, hrp, hlp, -, rfl⟩ |
    ⟨hb, hi, -, rfl⟩ | ⟨hb, hi, -, rfl⟩ | ⟨hb, hq, -, rfl⟩ | ⟨hb, hq, -, rfl⟩ |
    ⟨hb, hw, -, rfl⟩ | ⟨hb, hw, -, rfl⟩
  · have hu : (s.setBranch Branch.ws).stream.chars = c :: rest := by simpa using hc
    rw [measure_of_cons hu, measure_of_cons hc, hb]
    simp only [setBranch_branch]
    simp [branchExtra, hw]
  · exact measure_lt_of_tail hc (by simp [shiftForward_of_cons hc])
  · exact measure_lt_of_tail hc (by simp [shiftForward_of_cons hc])
  · exact measure_lt_of_tail hc (by simp [shiftForward_of_cons hc])
  · exact measure_lt_of_tail hc (by simp [shiftForward_of_cons hc])
  · exact measure_lt_of_tail hc (by simp [shiftForward_of_cons hc])
  · have hu : ((s.dropBuffer).setBranch Branch.init).stream.chars = c :: rest := by
      simpa using hc
    rw [measure_of_cons hu, measure_of_cons hc, hb]
    simp only [setBranch_branch, dropBuffer_branch, branchExtra]
    split <;> omega
  · exact measure_lt_of_tail hc (by simp [shiftForward_of_cons hc])
  · exact measure_lt_of_tail hc (by simp [shiftForward_of_cons hc])
  · exact measure_lt_of_tail hc (by simp [shiftForward_of_cons hc])
  · have hu : ((s.dropBuffer).setBranch Branch.init).stream.chars = c :: rest := by
      simpa using hc
    rw [measure_of_cons hu, measure_of_cons hc, hb]
    simp only [setBranch_branch, dropBuffer_branch]
    simp [branchExtra, hw]

/-! Fuel monotonicity and sufficiency for the driver loop. -/

theorem loopF_succ_none (fuel : Nat) (s : State) (h : s.current = none) :
    loopF (fuel + 1) s = some ([], .ok s) := by
  simp [loopF, h]

theorem loopF_succ_error (fuel : Nat) {s : State} {c : Char} {e : LexError}
    (hcur : s.current = some c) (hwb : s.withBranch c = .error e) :
    loopF (fuel + 1) s = some ([], .error e) := by
  simp [loopF, hcur, hwb]

theorem loopF_succ_ok (fuel : Nat) {s : State} {c : Char} {ts : List Token}
    {u : State} (hcur : s.current = some c) (hwb : s.withBranch c = .ok (ts, u)) :
    loopF (fuel + 1) s =
      match loopF fuel u with
      | none => none
      | some (ts', r) => some (ts ++ ts', r) := by
  simp [loopF, hcur, hwb]

theorem loopF_mono {fuel fuel' : Nat} {s : State}
    {r : List Token × Except LexError State}
    (h : loopF fuel s = some r) (hle : fuel ≤ fuel') : loopF fuel' s = some r := by
  induction fuel generalizing fuel' s r with
  | zero => simp [loopF] at h
  | succ n ih =>
    obtain ⟨m, rfl⟩ : ∃ m, fuel' = m + 1 := ⟨fuel' - 1, by omega⟩
    cases hcur : s.current with
    | none =>
      rw [loopF_succ_none n s hcur] at h
      rw [loopF_succ_none m s hcur]
      exact h
    | some c =>
      cases hwb : s.withBranch c with
      | error e =>
        rw [loopF_succ_error n hcur hwb] at h
        rw [loopF_succ_error m hcur hwb]
        exact h
      | ok p =>
        obtain ⟨ts, u⟩ := p
        rw [loopF_succ_ok n hcur hwb] at h
        rw [loopF_succ_ok m hcur hwb]
        cases hrec : loopF n u with
        | none => rw [hrec] at h; cases h
        | some q =>
          rw [hrec] at h
          rw [ih hrec (by omega)]
          exact h

theorem loopF_isSome {fuel : Nat} {s : State} (h : s.measure < fuel) :
    (loopF fuel s).isSome := by
  induction fuel generalizing s with
  | zero => omega
  | succ n ih =>
    cases hcur : s.current with
    | none => rw [loopF_succ_none n s hcur]; rfl
    | some c =>
      cases hwb : s.withBranch c with
      | error e => rw [loopF_succ_error n hcur hwb]; rfl
      | ok p =>
        obtain ⟨ts, u⟩ := p
        rw [loopF_succ_ok n hcur hwb]
        obtain ⟨rest, hc⟩ := chars_of_current_some hcur
        have hlt := withBranch_measure_lt hc hwb
        have hs := ih (s := u) (by omega)
        obtain ⟨q, hq⟩ := Option.isSome_iff_exists.mp hs
        rw [hq]
        obtain ⟨ts', r⟩ := q
        rfl

theorem loop_spec {s : State} {fuel : Nat} (h : s.measure < fuel) :
    loopF fuel s = some (loop s) := by
  have h1 : (loopF (s.measure + 1) s).isSome := loopF_isSome (by omega)
  obtain ⟨r, hr⟩ := Option.isSome_iff_exists.mp h1
  have h2 : loop s = r := by simp [loop, hr]
  rw [h2]
  exact loopF_mono hr (by omega)

/-! Unfolding equations for the driver loop. -/

theorem loop_none {s : State} (h : s.current = none) : loop s = ([], .ok s) := by
  have h1 := loopF_succ_none s.measure s h
  simp [loop, h1]

theorem loop_error {s : State} {c : Char} {e : LexError}
    (hcur : s.current = some c) (h : s.withBranch c = .error e) :
    loop s = ([], .error e) := by
  have h1 := loopF_succ_error s.measure hcur h
  simp [loop, h1]

theorem loop_step {s : State} {c : Char} {ts : List Token} {u : State}
    (hcur : s.current = some c) (h : s.withBranch c = .ok (ts, u)) :
    loop s = (ts ++ (loop u).1, (loop u).2) := by
  obtain ⟨rest, hc⟩ := chars_of_current_some hcur
  have hlt := withBranch_measure_lt hc h
  have hrec : loopF s.measure u = some (loop u) := loop_spec hlt
  have h1 := loopF_succ_ok s.measure hcur h
  rw [hrec] at h1
  rcases hu : loop u with ⟨ts', r⟩
  rw [hu] at h1
  have h2 : loopF (s.measure + 1) s = some (ts ++ ts', r) := h1
  simp [loop, h2, hu]

/-! Residual states of successful runs have exhausted cursors. -/

theorem loop_ok_chars_aux (n : Nat) :
    ∀ (s : State), s.measure ≤ n → ∀ {ts : List Token} {f : State},
      loop s = (ts, .ok f) → f.stream.chars = [] := by
  induction n with
  | zero =>
    intro s hm ts f h
    have hc : s.stream.chars = [] := by
      cases hl : s.stream.chars with
      | nil => rfl
      | cons c rest => have := measure_of_cons hl; omega
    have hcur : s.current = none := by rw [current_eq, hc]; rfl
    rw [loop_none hcur] at h
    injection h with h1 h2
    injection h2 with h3
    subst h3
    exact hc
  | succ n ih =>
    intro s hm ts f h
    cases hcur : s.current with
    | none =>
      rw [loop_none hcur] at h
      injection h with h1 h2
      injection h2 with h3
      subst h3
      exact chars_of_current_none hcur
    | some c =>
      cases hwb : s.withBranch c with
      | error e =>
        rw [loop_error hcur hwb] at h
        injection h with h1 h2
        cases h2
      | ok p =>
        obtain ⟨ts0, u⟩ := p
        rw [loop_step hcur hwb] at h
        obtain ⟨rest, hc⟩ := chars_of_current_some hcur
        have hlt := withBranch_measure_lt hc hwb
        have h2 : (loop u).2 = .ok f := by
          have := congrArg Prod.snd h
          simpa using this
        have h3 : loop u = ((loop u).1, .ok f) := by rw [← h2]
        exact ih u (by omega) h3

theorem loop_ok_chars {s : State} {ts : List Token} {f : State}
    (h : loop s = (ts, .ok f)) : f.stream.chars = [] :=
  loop_ok_chars_aux s.measure s le_rfl h

/-! Splicing further input into a run: one dispatch commutes with
appending characters to the cursor, and hence so does the whole loop.
This is the heart of chunk-boundary transparency. -/

theorem withBranch_append (s : State) {c : Char} {rest : List Char} (l₂ : List Char)
    (hc : s.stream.chars = c :: rest) :
    (s.addInput ⟨s.stream.chars ++ l₂⟩).withBranch c =
      match s.withBranch c with
      | .error e => .error e
      | .ok (ts, u) => .ok (ts, u.addInput ⟨u.stream.chars ++ l₂⟩) := by
  have hc' : (s.addInput ⟨s.stream.chars ++ l₂⟩).stream.chars = c :: (rest ++ l₂) := by
    simp [hc]
  cases hb : s.branch
  case init =>
    simp only [State.withBranch, addInput_branch, hb, branchInit]
    split_ifs
    · rfl
    · rw [shiftForward_of_cons hc', shiftForward_of_cons hc]
      simp [State.addInput, State.setBranch]
    · rw [shiftForward_of_cons hc', shiftForward_of_cons hc]
      simp [State.addInput, State.setBranch, State.dropBuffer]
    · rw [shiftForward_of_cons hc', shiftForward_of_cons hc]
      simp [State.addInput, State.dropBuffer]
    · rw [shiftForward_of_cons hc', shiftForward_of_cons hc]
      simp [State.addInput, State.dropBuffer]
    · rfl
  case id =>
    simp only [State.withBranch, addInput_branch, hb, branchId]
    split_ifs
    · rw [shiftForward_of_cons hc', shiftForward_of_cons hc]
      simp [State.addInput]
    · rfl
  case str =>
    simp only [State.withBranch, addInput_branch, hb, branchString]
    split_ifs
    · rw [shiftForward_of_cons hc', shiftForward_of_cons hc]
      simp [State.addInput]
    · rw [shiftForward_of_cons hc', shiftForward_of_cons hc]
      simp [State.addInput, State.setBranch, State.dropBuffer]
  case ws =>
    simp only [State.withBranch, addInput_branch, hb, branchWS]
    split_ifs
    · rw [shiftForward_of_cons hc', shiftForward_of_cons hc]
      simp [State.addInput]
    · rfl

theorem loop_append_aux (n : Nat) :
    ∀ (s : State), s.measure ≤ n → ∀ (l₂ : List Char),
    loop (s.addInput ⟨s.stream.chars ++ l₂⟩) =
      match loop s with
      | (ts, .error e) => (ts, .error e)
      | (ts, .ok m) =>
        (ts ++ (loop (m.addInput ⟨l₂⟩)).1, (loop (m.addInput ⟨l₂⟩)).2) := by
  induction n with
  | zero =>
    intro s hm l₂
    have hc : s.stream.chars = [] := by
      cases hl : s.stream.chars with
      | nil => rfl
      | cons c rest => have := measure_of_cons hl; omega
    have hcur : s.current = none := by rw [current_eq, hc]; rfl
    rw [loop_none hcur, hc]
    simp
  | succ n ih =>
    intro s hm l₂
    cases hcur : s.current with
    | none =>
      have hc := chars_of_current_none hcur
      rw [loop_none hcur, hc]
      simp
    | some c =>
      obtain ⟨rest, hc⟩ := chars_of_current_some hcur
      have hcur' : (s.addInput ⟨s.stream.chars ++ l₂⟩).current = some c := by
        simp [current_eq, hc]
      cases hwb : s.withBranch c with
      | error e =>
        have hwb' : (s.addInput ⟨s.stream.chars ++ l₂⟩).withBranch c = .error e := by
          rw [withBranch_append s l₂ hc, hwb]
        rw [loop_error hcur hwb, loop_error hcur' hwb']
      | ok p =>
        obtain ⟨ts, u⟩ := p
        have hwb' : (s.addInput ⟨s.stream.chars ++ l₂⟩).withBranch c =
            .ok (ts, u.addInput ⟨u.stream.chars ++ l₂⟩) := by
          rw [withBranch_append s l₂ hc, hwb]
        rw [loop_step hcur hwb, loop_step hcur' hwb']
        have hlt := withBranch_measure_lt hc hwb
        have hrec := ih u (by omega) l₂
        rw [hrec]
        rcases hlu : loop u with ⟨ts1, r1⟩
        cases r1 with
        | error e => simp
        | ok m => simp

theorem loop_append (s : State) (l₂ : List Char) :
    loop (s.addInput ⟨s.stream.chars ++ l₂⟩) =
      match loop s with
      | (ts, .error e) => (ts, .error e)
      | (ts, .ok m) =>
        (ts ++ (loop (m.addInput ⟨l₂⟩)).1, (loop (m.addInput ⟨l₂⟩)).2) :=
  loop_append_aux s.measure s le_rfl l₂

/-! Concatenation of chunk texts. -/

theorem foldl_append_data (l : List String) : ∀ a : String,
    (l.foldl (fun r s => r ++ s) a).data = a.data ++ (l.map String.data).flatten := by
  induction l with
  | nil => intro a; simp
  | cons c cs ih => intro a; simp [ih]

theorem string_join_data (l : List String) :
    (String.join l).data = (l.map String.data).flatten := by
  simpa [String.join] using foldl_append_data l ""

theorem string_join_cons_data (c : String) (cs : List String) :
    (String.join (c :: cs)).data = c.data ++ (String.join cs).data := by
  simp [string_join_data]

/-! Unfolding equations for the chunk scheduler. -/

theorem asyncLoop_nil (s : State) : asyncLoop s [] = ([], none) := rfl

theorem asyncLoop_none_head (s : State) (rest : List (Option String)) :
    asyncLoop s (none :: rest) = ([], some LexError.emptyInput) := rfl

theorem asyncLoop_cons_error {s : State} {v : String} {ts : List Token}
    {e : LexError} (rest : List (Option String))
    (h : withState s (withIterable v) = (ts, .error e)) :
    asyncLoop s (some v :: rest) = (ts, some e) := by
  simp only [asyncLoop, h]

theorem asyncLoop_cons_ok {s : State} {v : String} {ts : List Token}
    {m : State} (rest : List (Option String))
    (h : withState s (withIterable v) = (ts, .ok m)) :
    asyncLoop s (some v :: rest) =
      (ts ++ (asyncLoop m rest).1, (asyncLoop m rest).2) := by
  simp only [asyncLoop, h]

/-- Appending further text to the cursor when the run fails does not
change the outcome. -/
theorem loop_append_error {s : State} {l₂ : List Char} {ts : List Token}
    {e : LexError} (h : loop s = (ts, .error e)) :
    loop (s.addInput ⟨s.stream.chars ++ l₂⟩) = (ts, .error e) := by
  have h0 := loop_append s l₂
  rw [h] at h0
  exact h0

/-- Appending further text to the cursor composes the run over the first
part with a resumed run over the appended part. -/
theorem loop_append_ok {s : State} {l₂ : List Char} {ts : List Token}
    {m : State} (h : loop s = (ts, .ok m)) :
    loop (s.addInput ⟨s.stream.chars ++ l₂⟩) =
      (ts ++ (loop (m.addInput ⟨l₂⟩)).1, (loop (m.addInput ⟨l₂⟩)).2) := by
  have h0 := loop_append s l₂
  rw [h] at h0
  exact h0

theorem withState_split_error {s : State} {t₁ : String} {l₂ : List Char}
    {ts : List Token} {e : LexError}
    (h : withState s (withIterable t₁) = (ts, .error e)) :
    loop (s.addInput ⟨t₁.data ++ l₂⟩) = (ts, .error e) :=
  @loop_append_error (s.addInput ⟨t₁.data⟩) l₂ ts e h

theorem withState_split_ok {s : State} {t₁ : String} {l₂ : List Char}
    {ts : List Token} {m : State}
    (h : withState s (withIterable t₁) = (ts, .ok m)) :
    loop (s.addInput ⟨t₁.data ++ l₂⟩) =
      (ts ++ (loop (m.addInput ⟨l₂⟩)).1, (loop (m.addInput ⟨l₂⟩)).2) :=
  @loop_append_ok (s.addInput ⟨t₁.data⟩) l₂ ts m h

/-- Feeding the chunks one at a time is the same as feeding their
concatenation as a single chunk, from any residual state whose cursor is
exhausted. -/
theorem asyncLoop_chunks (cs : List String) :
    ∀ s : State, s.stream.chars = [] →
      asyncLoop s (cs.map some) = asyncLoop s [some (String.join cs)] := by
  induction cs with
  | nil =>
    intro s hs
    have h0 : (s.addInput (withIterable (String.join []))).current = none := rfl
    have hw : withState s (withIterable (String.join [])) =
        ([], .ok (s.addInput (withIterable (String.join [])))) :=
      loop_none h0
    rw [List.map_nil, asyncLoop_nil, asyncLoop_cons_ok [] hw, asyncLoop_nil]
    simp
  | cons c cs ih =>
    intro s hs
    rw [List.map_cons]
    have hj : withState s (withIterable (String.join (c :: cs))) =
        loop (s.addInput ⟨c.data ++ (String.join cs).data⟩) := by
      rw [show withState s (withIterable (String.join (c :: cs))) =
          loop (s.addInput ⟨(String.join (c :: cs)).data⟩) from rfl,
        string_join_cons_data c cs]
    rcases hw : withState s (withIterable c) with ⟨ts, r⟩
    cases r with
    | error e =>
      have hws0 : withState s (withIterable (String.join (c :: cs))) =
          (ts, .error e) := by
        rw [hj]
        exact withState_split_error hw
      rw [asyncLoop_cons_error (cs.map some) hw, asyncLoop_cons_error [] hws0]
    | ok m =>
      have hm : m.stream.chars = [] := loop_ok_chars hw
      have hws0 : withState s (withIterable (String.join (c :: cs))) =
          (ts ++ (withState m (withIterable (String.join cs))).1,
            (withState m (withIterable (String.join cs))).2) := by
        rw [hj]
        exact withState_split_ok hw
      rw [asyncLoop_cons_ok (cs.map some) hw, ih m hm]
      rcases hw2 : withState m (withIterable (String.join cs)) with ⟨ts2, r2⟩
      rw [hw2] at hws0
      cases r2 with
      | error e =>
        rw [asyncLoop_cons_error [] hw2, asyncLoop_cons_error [] hws0]
      | ok m2 =>
        rw [asyncLoop_cons_ok [] hw2, asyncLoop_cons_ok [] hws0, asyncLoop_nil]
        simp

/-! Error behaviour of the branches and the loop. -/

theorem withBranch_error_unexpected {s : State} {c : Char} {e : LexError}
    (h : s.withBranch c = .error e) : e = LexError.unexpectedChar c := by
  cases hb : s.branch <;> simp only [State.withBranch, hb] at h
  case init =>
    unfold branchInit at h
    split_ifs at h <;> simp_all
  case id =>
    unfold branchId at h
    split_ifs at h <;> simp_all
  case str =>
    unfold branchString at h
    split_ifs at h <;> simp_all
  case ws =>
    unfold branchWS at h
    split_ifs at h <;> simp_all

theorem loop_error_unexpected_aux (n : Nat) :
    ∀ (s : State), s.measure ≤ n → ∀ {ts : List Token} {e : LexError},
      loop s = (ts, .error e) → ∃ d, e = LexError.unexpectedChar d := by
  induction n with
  | zero =>
    intro s hm ts e h
    have hc : s.stream.chars = [] := by
      cases hl : s.stream.chars with
      | nil => rfl
      | cons c rest => have := measure_of_cons hl; omega
    have hcur : s.current = none := by rw [current_eq, hc]; rfl
    rw [loop_none hcur] at h
    injection h with h1 h2
    cases h2
  | succ n ih =>
    intro s hm ts e h
    cases hcur : s.current with
    | none =>
      rw [loop_none hcur] at h
      injection h with h1 h2
      cases h2
    | some c =>
      cases hwb : s.withBranch c with
      | error e0 =>
        rw [loop_error hcur hwb] at h
        injection h with h1 h2
        injection h2 with h3
        subst h3
        exact ⟨c, withBranch_error_unexpected hwb⟩
      | ok p =>
        obtain ⟨ts0, u⟩ := p
        rw [loop_step hcur hwb] at h
        obtain ⟨rest, hc⟩ := chars_of_current_some hcur
        have hlt := withBranch_measure_lt hc hwb
        have h2 : (loop u).2 = .error e := by
          have := congrArg Prod.snd h
          simpa using this
        have h3 : loop u = ((loop u).1, .error e) := by rw [← h2]
        exact ih u (by omega) h3

theorem loop_error_unexpected {s : State} {ts : List Token} {e : LexError}
    (h : loop s = (ts, .error e)) : ∃ d, e = LexError.unexpectedChar d :=
  loop_error_unexpected_aux s.measure s le_rfl h

/-! The scheduler on an empty chunk. -/

theorem asyncLoop_empty_chunk (s : State) (rest : List (Option String)) :
    asyncLoop s (some "" :: rest) = asyncLoop (s.addInput (withIterable "")) rest := by
  have h0 : (s.addInput (withIterable "")).current = none := rfl
  have hw : withState s (withIterable "") =
      ([], .ok (s.addInput (withIterable ""))) := loop_none h0
  rw [asyncLoop_cons_ok rest hw]
  simp

/-! Exactly when the scheduler raises EmptyInputError. -/

theorem asyncLoop_emptyInput_iff (input : List (Option String)) :
    ∀ s : State,
      (asyncLoop s input).2 = some LexError.emptyInput ↔
        ∃ (pre : List String) (rest : List (Option String)),
          input = pre.map some ++ none :: rest ∧
          (asyncLoop s (pre.map some)).2 = none ∧
          (asyncLoop s input).1 = (asyncLoop s (pre.map some)).1 := by
  induction input with
  | nil =>
    intro s
    constructor
    · intro h
      rw [asyncLoop_nil] at h
      cases h
    · rintro ⟨pre, rest, habs, -, -⟩
      cases pre <;> simp at habs
  | cons head rest ih =>
    intro s
    cases head with
    | none =>
      constructor
      · intro _
        exact ⟨[], rest, rfl, rfl, rfl⟩
      · intro _
        rw [asyncLoop_none_head]
    | some v =>
      rcases hw : withState s (withIterable v) with ⟨ts, r⟩
      cases r with
      | error e =>
        rw [asyncLoop_cons_error rest hw]
        obtain ⟨d, rfl⟩ := loop_error_unexpected hw
        constructor
        · intro h
          cases h
        · rintro ⟨pre, rest2, heq, hnone, -⟩
          cases pre with
          | nil => simp at heq
          | cons p ps =>
            simp only [List.map_cons, List.cons.injEq, Option.some.injEq] at heq
            obtain ⟨rfl, heq2⟩ := heq
            rw [List.map_cons, asyncLoop_cons_error (ps.map some) hw] at hnone
            cases hnone
      | ok m =>
        rw [asyncLoop_cons_ok rest hw]
        constructor
        · intro h
          simp only at h
          obtain ⟨pre, rest2, heq, hnone, htok⟩ := (ih m).mp h
          refine ⟨v :: pre, rest2, by simp [heq], ?_, ?_⟩
          · rw [List.map_cons, asyncLoop_cons_ok (pre.map some) hw]
            simpa using hnone
          · rw [List.map_cons, asyncLoop_cons_ok (pre.map some) hw]
            simpa using htok
        · rintro ⟨pre, rest2, heq, hnone, htok⟩
          cases pre with
          | nil => simp at heq
          | cons p ps =>
            simp only [List.map_cons, List.cons_append, List.cons.injEq,
              Option.some.injEq] at heq
            obtain ⟨hvp, heq2⟩ := heq
            subst hvp
            rw [List.map_cons] at hnone htok
            rw [asyncLoop_cons_ok (ps.map some) hw] at hnone htok
            simp only at hnone htok ⊢
            apply (ih m).mpr
            refine ⟨ps, rest2, heq2, hnone, ?_⟩
            exact List.append_cancel_left htok

/-! Preservation of the buffer-position invariant. -/

theorem coherent_create (st : Stream) (b : Branch) : Coherent (State.create st b) := by
  simp [Coherent, State.create]

theorem coherent_shiftForward {s : State} (h : Coherent s) :
    Coherent s.shiftForward := by
  cases hcur : s.current with
  | none => rw [shiftForward_of_none hcur]; exact h
  | some c =>
    obtain ⟨rest, hc⟩ := chars_of_current_some hcur
    rw [shiftForward_of_cons hc]
    simp only [Coherent] at h ⊢
    simp [String.data_push, List.foldl_append, ← h]

theorem coherent_dropBuffer {s : State} (h : Coherent s) :
    Coherent s.dropBuffer := by
  simp [Coherent]

theorem coherent_setBranch {s : State} (b : Branch) (h : Coherent s) :
    Coherent (s.setBranch b) := h

theorem coherent_addInput {s : State} (st : Stream) (h : Coherent s) :
    Coherent (s.addInput st) := h

theorem coherent_withBranch {s : State} {c : Char} {ts : List Token} {u : State}
    (h : Coherent s) (hw : s.withBranch c = .ok (ts, u)) : Coherent u := by
  rcases withBranch_inv hw with
    ⟨-, -, -, rfl⟩ | ⟨-, -, -, -, rfl⟩ | ⟨-, -, -, -, -, rfl⟩ |
    ⟨-, -, -, -, -, -, rfl⟩ | ⟨-, -, -, -, -, -, -, rfl⟩ |
    ⟨-, -, -, rfl⟩ | ⟨-, -, -, rfl⟩ | ⟨-, -, -, rfl⟩ | ⟨-, -, -, rfl⟩ |
    ⟨-, -, -, rfl⟩ | ⟨-, -, -, rfl⟩
  · exact coherent_setBranch _ h
  · exact coherent_setBranch _ (coherent_shiftForward h)
  · exact coherent_setBranch _ (coherent_dropBuffer (coherent_shiftForward h))
  · exact coherent_dropBuffer (coherent_shiftForward h)
  · exact coherent_dropBuffer (coherent_shiftForward h)
  · exact coherent_shiftForward h
  · exact coherent_setBranch _ (coherent_dropBuffer h)
  · exact coherent_shiftForward h
  · exact coherent_setBranch _ (coherent_dropBuffer (coherent_shiftForward h))
  · exact coherent_shiftForward h
  · exact coherent_setBranch _ (coherent_dropBuffer h)

/-! What one successful dispatch does to the cursor and the end
position: either nothing is consumed and both are unchanged, or exactly
the head character is consumed and the end position shifts with it. -/

theorem withBranch_step_effect {s : State} {c : Char} {rest : List Char}
    {ts : List Token} {u : State}
    (hc : s.stream.chars = c :: rest) (h : s.withBranch c = .ok (ts, u)) :
    (u.stream.chars = c :: rest ∧ u.bufEnd = s.bufEnd) ∨
    (u.stream.chars = rest ∧ u.bufEnd = s.bufEnd.shiftWith c) := by
  rcases withBranch_inv h with
    ⟨-, -, -, rfl⟩ | ⟨-, -, -, -, rfl⟩ | ⟨-, -, -, -, -, rfl⟩ |
    ⟨-, -, -, -, -, -, rfl⟩ | ⟨-, -, -, -, -, -, -, rfl⟩ |
    ⟨-, -, -, rfl⟩ | ⟨-, -, -, rfl⟩ | ⟨-, -, -, rfl⟩ | ⟨-, -, -, rfl⟩ |
    ⟨-, -, -, rfl⟩ | ⟨-, -, -, rfl⟩
  · left; exact ⟨by simpa using hc, rfl⟩
  · right; rw [shiftForward_of_cons hc]; exact ⟨rfl, rfl⟩
  · right; rw [shiftForward_of_cons hc]; exact ⟨rfl, rfl⟩
  · right; rw [shiftForward_of_cons hc]; exact ⟨rfl, rfl⟩
  · right; rw [shiftForward_of_cons hc]; exact ⟨rfl, rfl⟩
  · right; rw [shiftForward_of_cons hc]; exact ⟨rfl, rfl⟩
  · left; exact ⟨by simpa using hc, rfl⟩
  · right; rw [shiftForward_of_cons hc]; exact ⟨rfl, rfl⟩
  · right; rw [shiftForward_of_cons hc]; exact ⟨rfl, rfl⟩
  · right; rw [shiftForward_of_cons hc]; exact ⟨rfl, rfl⟩
  · left; exact ⟨by simpa using hc, rfl⟩

/-- Over a successful run, the end position advances by exactly one
shiftWith per input character, in input order: every character is
consumed exactly once, none dropped, none duplicated. -/
theorem loop_bufEnd_trace_aux (n : Nat) :
    ∀ (s : State), s.measure ≤ n → ∀ {ts : List Token} {f : State},
      loop s = (ts, .ok f) →
      f.bufEnd = s.stream.chars.foldl Position.shiftWith s.bufEnd := by
  induction n with
  | zero =>
    intro s hm ts f h
    have hc : s.stream.chars = [] := by
      cases hl : s.stream.chars with
      | nil => rfl
      | cons c rest => have := measure_of_cons hl; omega
    have hcur : s.current = none := by rw [current_eq, hc]; rfl
    rw [loop_none hcur] at h
    injection h with h1 h2
    injection h2 with h3
    subst h3
    rw [hc]
    rfl
  | succ n ih =>
    intro s hm ts f h
    cases hcur : s.current with
    | none =>
      rw [loop_none hcur] at h
      injection h with h1 h2
      injection h2 with h3
      subst h3
      rw [chars_of_current_none hcur]
      rfl
    | some c =>
      cases hwb : s.withBranch c with
      | error e =>
        rw [loop_error hcur hwb] at h
        injection h with h1 h2
        cases h2
      | ok p =>
        obtain ⟨ts0, u⟩ := p
        rw [loop_step hcur hwb] at h
        obtain ⟨rest, hc⟩ := chars_of_current_some hcur
        have hlt := withBranch_measure_lt hc hwb
        have h2 : (loop u).2 = .ok f := by
          have := congrArg Prod.snd h
          simpa using this
        have h3 : loop u = ((loop u).1, .ok f) := by rw [← h2]
        have hrec := ih u (by omega) h3
        rcases withBranch_step_effect hc hwb with ⟨he1, he2⟩ | ⟨he1, he2⟩
        · rw [hrec, he1, he2, hc]
        · rw [hrec, he1, he2, hc, List.foldl_cons]

theorem loop_bufEnd_trace {s : State} {ts : List Token} {f : State}
    (h : loop s = (ts, .ok f)) :
    f.bufEnd = s.stream.chars.foldl Position.shiftWith s.bufEnd :=
  loop_bufEnd_trace_aux s.measure s le_rfl h

/-! Claim theorems. -/

/-- C1: chunk-boundary transparency. For every finite list of text
chunks, running tokenStream over the chunks delivered one at a time
produces exactly the same token sequence (same kinds, payloads and
locations, in the same order, and the same error outcome) as running it
over the single concatenated chunk, including when a chunk boundary
falls in the middle of an identifier, string, or whitespace run. -/
theorem claim_C1 (cs : List String) :
    tokenStream (cs.map some) = tokenStream [some (String.join cs)] :=
  asyncLoop_chunks cs initialState rfl

/-- C2 counterexample: on the single chunk holding a double-quoted
string of ten characters, the emitted String token does not carry the
location claimed (start at line 0 column 0); its location starts at
column 1, just past the opening quote, because the opening quote is
consumed and then dropped from the buffer before the buffer start
position is committed. -/
theorem claim_C2_counterexample :
    (tokenStream [some "\"hi there\""]).1 ≠
      [Token.string "hi there" ⟨⟨0, 0⟩, ⟨0, 10⟩⟩] := by decide

/-- C2 as amended: the tokenizer emits exactly one token for this input,
a String token with content hi there whose location spans from line 0
column 1 (just past the opening quote) to line 0 column 10 (just past
the closing quote), and no error is raised. -/
theorem claim_C2 :
    tokenStream [some "\"hi there\""] =
      ([Token.string "hi there" ⟨⟨0, 1⟩, ⟨0, 10⟩⟩], none) := by decide

/-- C4: UnexpectedChar is raised if and only if the Init branch is
dispatched on a character that is neither whitespace, nor alphabetic,
nor a double quote, nor a parenthesis; the error carries that character;
the other branches never fail; on a failing dispatch the driver loop
stops immediately with that error and emits no further token; and an
input containing a hash character at top level raises UnexpectedChar of
that hash character. -/
theorem claim_C4 :
    (∀ (c : Char) (s : State),
      branchInit c s = .error (LexError.unexpectedChar c) ↔
        (isWhitespace c = false ∧ isAlpha c = false ∧
          c ≠ '"' ∧ c ≠ '(' ∧ c ≠ ')')) ∧
    (∀ (c : Char) (s : State) (e : LexError),
      branchInit c s = .error e → e = LexError.unexpectedChar c) ∧
    (∀ (c : Char) (s : State) (e : LexError),
      branchId c s ≠ .error e ∧ branchString c s ≠ .error e ∧
        branchWS c s ≠ .error e) ∧
    (∀ (s : State) (c : Char) (e : LexError),
      s.current = some c → s.withBranch c = .error e →
        loop s = ([], .error e)) ∧
    tokenStream [some "#"] = ([], some (LexError.unexpectedChar '#')) := by
  refine ⟨?_, ?_, ?_, ?_, by decide⟩
  · intro c s
    constructor
    · intro h
      unfold branchInit at h
      split_ifs at h with h1 h2 h3 h4 h5 <;> simp_all
    · rintro ⟨h1, h2, h3, h4, h5⟩
      unfold branchInit
      split_ifs <;> simp_all
  · intro c s e h
    unfold branchInit at h
    split_ifs at h <;> simp_all
  · intro c s e
    refine ⟨?_, ?_, ?_⟩
    · unfold branchId; split_ifs <;> simp
    · unfold branchString; split_ifs <;> simp
    · unfold branchWS; split_ifs <;> simp
  · intro s c e hcur hwb
    exact loop_error hcur hwb

/-- C4 witness: the hash character is in no recognized class, so the
Init branch fails on it with UnexpectedChar of that character. -/
theorem claim_C4_witness :
    branchInit '#' initialState = .error (LexError.unexpectedChar '#') :=
  (claim_C4.1 '#' initialState).mpr (by decide)

/-- C5 counterexample: a pull resolving with done false and a present
but empty text value does not raise EmptyInputError; the claimed
"absent or empty" condition is wrong on the empty side, since the
source only rejects an absent (null) value. -/
theorem claim_C5_counterexample :
    (tokenStream [some ""]).2 = none ∧
    (tokenStream [some ""]).2 ≠ some LexError.emptyInput := by decide

/-- C5 as amended: EmptyInputError is raised exactly when the chunk
source resolves a pull with done false and an absent value (a none
pull) after a prefix of present chunks that tokenizes without error;
it is surfaced at that pull, and the tokens delivered are exactly those
of that prefix, so the session ends with no further token. -/
theorem claim_C5 (input : List (Option String)) :
    (tokenStream input).2 = some LexError.emptyInput ↔
      ∃ (pre : List String) (rest : List (Option String)),
        input = pre.map some ++ none :: rest ∧
        (tokenStream (pre.map some)).2 = none ∧
        (tokenStream input).1 = (tokenStream (pre.map some)).1 :=
  asyncLoop_emptyInput_iff input initialState

/-- C5 witness: a lone absent pull raises EmptyInputError. -/
theorem claim_C5_witness :
    (tokenStream [(none : Option String)]).2 = some LexError.emptyInput :=
  (claim_C5 [none]).mpr ⟨[], [], rfl, by decide, by decide⟩

/-- C6: in every lexer state reachable from the initial state by the
public operations (shiftForward, dropBuffer, setBranch, input splicing
and the branch functions), the buffer end position equals the result of
applying shiftWith to the buffer start position once per buffered
character, in order; every operation preserves this invariant. -/
theorem claim_C6 : ∀ s : State, Reachable s → Coherent s := by
  intro s h
  induction h with
  | initial => exact coherent_create _ _
  | shiftForward _ ih => exact coherent_shiftForward ih
  | dropBuffer _ ih => exact coherent_dropBuffer ih
  | setBranch b _ ih => exact coherent_setBranch b ih
  | addInput st _ ih => exact coherent_addInput st ih
  | withBranch _ hw ih => exact coherent_withBranch ih hw

/-- C6 witness: a state reached by splicing input and consuming one
character satisfies the invariant. -/
theorem claim_C6_witness :
    Coherent ((initialState.addInput (withIterable "ab")).shiftForward) :=
  claim_C6 _ (Reachable.shiftForward (Reachable.addInput _ Reachable.initial))

/-- C7: terminator handling. When the Identifier or Whitespace branch
emits its token, the terminating character is not consumed and the
driver loop re-dispatches that same character, unchanged, to the Init
branch; the String branch instead consumes the closing quote as part of
its token. Every successful dispatch either consumes nothing or
consumes exactly the head character of the cursor, and over any
successful run the cursor is fully drained while the end position folds
shiftWith over exactly the input characters in order, so every
character is processed by exactly one consuming step, none dropped and
none duplicated. -/
theorem claim_C7 :
    (∀ (c : Char) (s : State), s.branch = .id → s.current = some c →
      isIdChar c = false →
        loop s = (Token.identifier s.enqueued s.location ::
            (loop ((s.dropBuffer).setBranch .init)).1,
          (loop ((s.dropBuffer).setBranch .init)).2) ∧
        ((s.dropBuffer).setBranch .init).current = some c ∧
        ((s.dropBuffer).setBranch .init).branch = .init) ∧
    (∀ (c : Char) (s : State), s.branch = .ws → s.current = some c →
      isWhitespace c = false →
        loop s = (Token.whitespace s.enqueued.length s.location ::
            (loop ((s.dropBuffer).setBranch .init)).1,
          (loop ((s.dropBuffer).setBranch .init)).2) ∧
        ((s.dropBuffer).setBranch .init).current = some c ∧
        ((s.dropBuffer).setBranch .init).branch = .init) ∧
    (∀ s : State, s.branch = .str → s.current = some '"' →
        loop s = (Token.string s.enqueued (s.shiftForward).location ::
            (loop (((s.shiftForward).dropBuffer).setBranch .init)).1,
          (loop (((s.shiftForward).dropBuffer).setBranch .init)).2) ∧
        (((s.shiftForward).dropBuffer).setBranch .init).stream.chars =
          s.stream.chars.tail ∧
        (s.shiftForward).buffer = s.buffer.push '"') ∧
    (∀ (s : State) (c : Char) (ts : List Token) (u : State),
      s.current = some c → s.withBranch c = .ok (ts, u) →
        u.stream.chars = s.stream.chars ∨
        u.stream.chars = s.stream.chars.tail) ∧
    (∀ (s : State) (ts : List Token) (f : State), loop s = (ts, .ok f) →
      f.stream.chars = [] ∧
      f.bufEnd = s.stream.chars.foldl Position.shiftWith s.bufEnd) := by
  refine ⟨?_, ?_, ?_, ?_, ?_⟩
  · intro c s hb hcur hid
    have hwb : s.withBranch c = .ok
        ([Token.identifier s.enqueued s.location],
          (s.dropBuffer).setBranch .init) := by
      simp [State.withBranch, hb, branchId, hid]
    refine ⟨?_, hcur, rfl⟩
    simpa using loop_step hcur hwb
  · intro c s hb hcur hws
    have hwb : s.withBranch c = .ok
        ([Token.whitespace s.enqueued.length s.location],
          (s.dropBuffer).setBranch .init) := by
      simp [State.withBranch, hb, branchWS, hws]
    refine ⟨?_, hcur, rfl⟩
    simpa using loop_step hcur hwb
  · intro s hb hcur
    obtain ⟨rest, hc⟩ := chars_of_current_some hcur
    have hwb : s.withBranch '"' = .ok
        ([Token.string s.enqueued (s.shiftForward).location],
          ((s.shiftForward).dropBuffer).setBranch .init) := by
      simp [State.withBranch, hb, branchString]
    refine ⟨?_, ?_, ?_⟩
    · simpa using loop_step hcur hwb
    · rw [shiftForward_of_cons hc, hc]
      rfl
    · rw [shiftForward_of_cons hc]
  · intro s c ts u hcur hwb
    obtain ⟨rest, hc⟩ := chars_of_current_some hcur
    rcases withBranch_step_effect hc hwb with ⟨he, -⟩ | ⟨he, -⟩
    · left; rw [he, hc]
    · right; rw [he, hc, List.tail_cons]
  · intro s ts f h
    exact ⟨loop_ok_chars h, loop_bufEnd_trace h⟩

/-- C7 witness: the run over an already-exhausted cursor succeeds with
the cursor drained and the end position unchanged by the empty fold. -/
theorem claim_C7_witness :
    initialState.stream.chars = [] ∧
    initialState.bufEnd =
      initialState.stream.chars.foldl Position.shiftWith initialState.bufEnd :=
  claim_C7.2.2.2.2 initialState [] initialState (by rfl)

/-- C8: the single chunk of an opening parenthesis, the identifier abc
and a closing parenthesis produces exactly three tokens in order:
LeftParen at line 0 columns 0 to 1, Identifier abc at line 0 columns 1
to 4, and RightParen at line 0 columns 4 to 5, with no error. -/
theorem claim_C8 :
    tokenStream [some "(abc)"] =
      ([Token.leftParen ⟨⟨0, 0⟩, ⟨0, 1⟩⟩,
        Token.identifier "abc" ⟨⟨0, 1⟩, ⟨0, 4⟩⟩,
        Token.rightParen ⟨⟨0, 4⟩, ⟨0, 5⟩⟩], none) := by decide

/-- C9: shiftForward on a lexer state whose cursor is exhausted returns
a state equal to the input state, every field unchanged, so shiftForward
is idempotent on exhausted states; the underlying cursor has the same
idempotence past its end. -/
theorem claim_C9 :
    (∀ s : State, s.current = none → s.shiftForward = s) ∧
    (∀ st : Stream, st.current = none → st.shiftForward = st) := by
  constructor
  · intro s h
    exact shiftForward_of_none h
  · intro st h
    have hc : st.chars = [] := List.head?_eq_none_iff.mp h
    cases st
    simp_all [Stream.shiftForward]

/-- C9 witness: the initial state has an exhausted cursor and is a fixed
point of shiftForward, and likewise the empty cursor. -/
theorem claim_C9_witness :
    initialState.shiftForward = initialState ∧
    (Stream.mk []).shiftForward = Stream.mk [] :=
  ⟨claim_C9.1 initialState rfl, claim_C9.2 ⟨[]⟩ rfl⟩

/-- C10: a pull resolving with done false and the empty string as its
value raises no EmptyInputError: the empty chunk contributes no tokens,
the residual state is carried over with only the cursor replaced
(branch, buffer and positions unchanged), and the scheduler proceeds
with the remaining pulls. -/
theorem claim_C10 :
    (∀ rest : List (Option String),
      tokenStream (some "" :: rest) = tokenStream rest) ∧
    (∀ (s : State) (rest : List (Option String)),
      asyncLoop s (some "" :: rest) =
        asyncLoop (s.addInput (withIterable "")) rest) ∧
    (∀ (s : State) (st : Stream),
      (s.addInput st).branch = s.branch ∧
      (s.addInput st).buffer = s.buffer ∧
      (s.addInput st).bufStart = s.bufStart ∧
      (s.addInput st).bufEnd = s.bufEnd) := by
  refine ⟨?_, ?_, ?_⟩
  · intro rest
    have h := asyncLoop_empty_chunk initialState rest
    have h2 : initialState.addInput (withIterable "") = initialState := rfl
    rw [h2] at h
    exact h
  · exact asyncLoop_empty_chunk
  · intro s st
    exact ⟨rfl, rfl, rfl, rfl⟩

/-! Position order and the position-to-index correspondence. -/

theorem ltB_shiftWith (p : Position) (c : Char) : p.ltB (p.shiftWith c) := by
  simp only [Position.ltB, Position.shiftWith]
  split <;> simp <;> omega

theorem ltB_trans {p q r : Position} (h1 : p.ltB q) (h2 : q.ltB r) : p.ltB r := by
  simp only [Position.ltB] at *
  omega

theorem ltB_ne {p q : Position} (h : p.ltB q) : p ≠ q := by
  simp only [Position.ltB] at h
  intro e
  subst e
  omega

theorem posAfterFrom_nil (p : Position) : posAfterFrom p [] = p := rfl

theorem posAfterFrom_cons (p : Position) (c : Char) (l : List Char) :
    posAfterFrom p (c :: l) = posAfterFrom (p.shiftWith c) l := rfl

theorem posAfterFrom_append (p : Position) (l₁ l₂ : List Char) :
    posAfterFrom p (l₁ ++ l₂) = posAfterFrom (posAfterFrom p l₁) l₂ := by
  simp [posAfterFrom, List.foldl_append]

theorem le_posAfterFrom (l : List Char) : ∀ p : Position,
    p = posAfterFrom p l ∨ p.ltB (posAfterFrom p l) := by
  induction l with
  | nil => intro p; left; rfl
  | cons c l ih =>
    intro p
    rcases ih (p.shiftWith c) with h | h
    · right
      rw [posAfterFrom_cons, ← h]
      exact ltB_shiftWith p c
    · right
      rw [posAfterFrom_cons]
      exact ltB_trans (ltB_shiftWith p c) h

theorem posIndexAux_positionsFrom (l : List Char) : ∀ (p : Position) (j : Nat),
    j ≤ l.length →
    posIndexAux (posAfterFrom p (l.take j)) (positionsFrom p l) = j := by
  induction l with
  | nil =>
    intro p j hj
    have hj0 : j = 0 := by simpa using hj
    subst hj0
    simp [positionsFrom, posIndexAux, posAfterFrom]
  | cons c l ih =>
    intro p j hj
    cases j with
    | zero => simp [positionsFrom, posIndexAux, posAfterFrom]
    | succ j =>
      rw [List.take_succ_cons, posAfterFrom_cons]
      have hne : p ≠ posAfterFrom (p.shiftWith c) (l.take j) := by
        rcases le_posAfterFrom (l.take j) (p.shiftWith c) with h | h
        · rw [← h]
          exact ltB_ne (ltB_shiftWith p c)
        · exact ltB_ne (ltB_trans (ltB_shiftWith p c) h)
      rw [show positionsFrom p (c :: l) = p :: positionsFrom (p.shiftWith c) l
        from rfl]
      simp only [posIndexAux, if_neg hne]
      rw [ih (p.shiftWith c) j (by simpa using hj)]

theorem posIndex_posAfter_take (input : List Char) (j : Nat)
    (hj : j ≤ input.length) :
    posIndex input (posAfter (input.take j)) = j :=
  posIndexAux_positionsFrom input Position.init j hj

theorem spanOf_slice (input : List Char) {j k : Nat}
    (hj : j ≤ input.length) (hk : k ≤ input.length) :
    spanOf input (Location.mk (posAfter (input.take j)) (posAfter (input.take k))) =
      sliceOf input j k := by
  unfold spanOf sliceOf
  rw [show (Location.mk (posAfter (input.take j)) (posAfter (input.take k))).start =
      posAfter (input.take j) from rfl]
  rw [show (Location.mk (posAfter (input.take j))
      (posAfter (input.take k))).«end» = posAfter (input.take k) from rfl]
  rw [posIndex_posAfter_take input j hj, posIndex_posAfter_take input k hk]

/-! Slicing bookkeeping. -/

theorem drop_cons_facts {input : List Char} {k : Nat} {c : Char} {t : List Char}
    (h : input.drop k = c :: t) :
    k < input.length ∧ input.take (k + 1) = input.take k ++ [c] ∧
      input.drop (k + 1) = t := by
  induction k generalizing input with
  | zero =>
    rw [List.drop_zero] at h
    subst h
    simp
  | succ k ih =>
    cases input with
    | nil => simp at h
    | cons a l =>
      rw [List.drop_succ_cons] at h
      obtain ⟨h1, h2, h3⟩ := ih h
      refine ⟨by simpa using h1, ?_, by simpa using h3⟩
      rw [List.take_succ_cons, List.take_succ_cons, h2]
      rfl

theorem take_append_sliceOf {input : List Char} {j k : Nat}
    (hjk : j ≤ k) (hk : k ≤ input.length) :
    input.take j ++ sliceOf input j k = input.take k := by
  unfold sliceOf
  have h1 : input.take j = (input.take k).take j := by
    rw [List.take_take, Nat.min_eq_left hjk]
  rw [h1, List.take_append_drop]

theorem posAfter_take_succ {input : List Char} {k : Nat} {c : Char}
    {t : List Char} (h : input.drop k = c :: t) :
    posAfter (input.take (k + 1)) = (posAfter (input.take k)).shiftWith c := by
  obtain ⟨-, h2, -⟩ := drop_cons_facts h
  rw [h2]
  unfold posAfter
  rw [posAfterFrom_append]
  rfl

theorem sliceOf_snoc {input : List Char} {j k : Nat} {c : Char} {t : List Char}
    (h : input.drop k = c :: t) (hjk : j ≤ k) :
    sliceOf input j (k + 1) = sliceOf input j k ++ [c] := by
  obtain ⟨h1, h2, -⟩ := drop_cons_facts h
  unfold sliceOf
  rw [h2, List.drop_append_of_le_length]
  rw [List.length_take]
  omega

theorem sliceOf_self (input : List Char) (k : Nat) : sliceOf input k k = [] := by
  unfold sliceOf
  apply List.drop_eq_nil_of_le
  rw [List.length_take]
  omega

/-! The reconstructed text of token sequences. -/

theorem roundTripQ_nil (input : List Char) : roundTripQ input [] = [] := rfl

theorem roundTripQ_append (input : List Char) (ts₁ ts₂ : List Token) :
    roundTripQ input (ts₁ ++ ts₂) =
      roundTripQ input ts₁ ++ roundTripQ input ts₂ := by
  simp [roundTripQ]

theorem roundTripQ_singleton (input : List Char) (t : Token) :
    roundTripQ input [t] = tokenTextQ input t := by
  simp [roundTripQ]

/-! One dispatch preserves run coherence. -/

theorem runInv_step {input : List Char} {em : List Token} {s : State}
    {c : Char} {ts : List Token} {u : State}
    (hinv : RunInv input em s) (hcur : s.current = some c)
    (hwb : s.withBranch c = .ok (ts, u)) :
    RunInv input (em ++ ts) u := by
  obtain ⟨j, k, hjk, hk, hstream, hstart, hend, hbuf, hbr⟩ := hinv
  obtain ⟨rest, hc⟩ := chars_of_current_some hcur
  have hdrop : input.drop k = c :: rest := by rw [← hstream, hc]
  obtain ⟨hklen, htake, hdrop1⟩ := drop_cons_facts hdrop
  have hjlen : j ≤ input.length := le_trans hjk hk
  rcases withBranch_inv hwb with
    ⟨hb, hw, rfl, rfl⟩ | ⟨hb, hw, ha, rfl, rfl⟩ | ⟨hb, hw, ha, rfl, rfl, rfl⟩ |
    ⟨hb, hw, ha, hq, rfl, rfl, rfl⟩ | ⟨hb, hw, ha, hq, hrp, rfl, rfl, rfl⟩ |
    ⟨hb, hi, rfl, rfl⟩ | ⟨hb, hi, rfl, rfl⟩ | ⟨hb, hq, rfl, rfl⟩ |
    ⟨hb, rfl, rfl, rfl⟩ | ⟨hb, hw, rfl, rfl⟩ | ⟨hb, hw, rfl, rfl⟩
  -- Init on whitespace: switch mode only.
  · rw [hb] at hbr
    simp only [BranchInv] at hbr
    obtain ⟨hjk', hrt⟩ := hbr
    refine ⟨j, k, hjk, hk, by simpa using hstream, by simpa using hstart,
      by simpa using hend, by simpa using hbuf, ?_⟩
    simp only [setBranch_branch, BranchInv, List.append_nil]
    rw [hrt, hjk']
  -- Init on an alphabetic character: consume it, switch to Identifier.
  · rw [hb] at hbr
    simp only [BranchInv] at hbr
    obtain ⟨hjk', hrt⟩ := hbr
    refine ⟨j, k + 1, by omega, by omega, ?_, ?_, ?_, ?_, ?_⟩
    · simp [shiftForward_of_cons hc, hdrop1]
    · simp [shiftForward_of_cons hc, hstart]
    · simp only [setBranch_bufEnd]
      rw [shiftForward_of_cons hc, posAfter_take_succ hdrop]
      simp [hend]
    · simp only [setBranch_buffer]
      rw [shiftForward_of_cons hc]
      simp only [String.data_push]
      rw [hbuf, sliceOf_snoc hdrop hjk]
    · simp only [setBranch_branch, BranchInv, List.append_nil]
      rw [hrt, hjk']
  -- Init on a quote: consume it, drop it from the buffer, switch to
  -- String.
  · rw [hb] at hbr
    simp only [BranchInv] at hbr
    obtain ⟨hjk', hrt⟩ := hbr
    refine ⟨k + 1, k + 1, le_rfl, by omega, ?_, ?_, ?_, ?_, ?_⟩
    · simp [shiftForward_of_cons hc, hdrop1]
    · simp only [setBranch_bufStart, dropBuffer_bufStart]
      rw [shiftForward_of_cons hc, posAfter_take_succ hdrop]
      simp [hend]
    · simp only [setBranch_bufEnd, dropBuffer_bufEnd]
      rw [shiftForward_of_cons hc, posAfter_take_succ hdrop]
      simp [hend]
    · simp only [setBranch_buffer, dropBuffer_buffer]
      rw [sliceOf_self]
    · simp only [setBranch_branch, BranchInv, List.append_nil]
      refine ⟨by omega, ?_, ?_⟩
      · simpa using htake
      · simpa [hrt] using hjk'.symm
  -- Init on a closing parenthesis: consume it, emit RightParen.
  · rw [hb] at hbr
    simp only [BranchInv] at hbr
    obtain ⟨hjk', hrt⟩ := hbr
    refine ⟨k + 1, k + 1, le_rfl, by omega, ?_, ?_, ?_, ?_, ?_⟩
    · simp [shiftForward_of_cons hc, hdrop1]
    · simp only [dropBuffer_bufStart]
      rw [shiftForward_of_cons hc, posAfter_take_succ hdrop]
      simp [hend]
    · simp only [dropBuffer_bufEnd]
      rw [shiftForward_of_cons hc, posAfter_take_succ hdrop]
      simp [hend]
    · simp only [dropBuffer_buffer]
      rw [sliceOf_self]
    · simp only [dropBuffer_branch, shiftForward_branch]
      rw [hb]
      simp only [BranchInv]
      refine ⟨trivial, ?_⟩
      rw [roundTripQ_append, roundTripQ_singleton]
      rw [show tokenTextQ input (Token.rightParen (s.shiftForward).location) =
        [')'] from rfl]
      rw [hrt]
      exact htake.symm
  -- Init on an opening parenthesis: consume it, emit LeftParen.
  · rw [hb] at hbr
    simp only [BranchInv] at hbr
    obtain ⟨hjk', hrt⟩ := hbr
    refine ⟨k + 1, k + 1, le_rfl, by omega, ?_, ?_, ?_, ?_, ?_⟩
    · simp [shiftForward_of_cons hc, hdrop1]
    · simp only [dropBuffer_bufStart]
      rw [shiftForward_of_cons hc, posAfter_take_succ hdrop]
      simp [hend]
    · simp only [dropBuffer_bufEnd]
      rw [shiftForward_of_cons hc, posAfter_take_succ hdrop]
      simp [hend]
    · simp only [dropBuffer_buffer]
      rw [sliceOf_self]
    · simp only [dropBuffer_branch, shiftForward_branch]
      rw [hb]
      simp only [BranchInv]
      refine ⟨trivial, ?_⟩
      rw [roundTripQ_append, roundTripQ_singleton]
      rw [show tokenTextQ input (Token.leftParen (s.shiftForward).location) =
        ['('] from rfl]
      rw [hrt]
      exact htake.symm
  -- Identifier on an identifier character: consume it.
  · rw [hb] at hbr
    simp only [BranchInv] at hbr
    refine ⟨j, k + 1, by omega, by omega, ?_, ?_, ?_, ?_, ?_⟩
    · simp [shiftForward_of_cons hc, hdrop1]
    · simp [shiftForward_of_cons hc, hstart]
    · rw [shiftForward_of_cons hc, posAfter_take_succ hdrop]
      simp [hend]
    · rw [shiftForward_of_cons hc]
      simp only [String.data_push]
      rw [hbuf, sliceOf_snoc hdrop hjk]
    · rw [show ((s.shiftForward).branch) = s.branch from by
        rw [shiftForward_of_cons hc], hb]
      simp only [BranchInv, List.append_nil]
      exact hbr
  -- Identifier on a terminator: emit the identifier, do not consume.
  · rw [hb] at hbr
    simp only [BranchInv] at hbr
    refine ⟨k, k, le_rfl, hk, by simpa using hstream, ?_, by simpa using hend,
      ?_, ?_⟩
    · simp [hend]
    · simp only [setBranch_buffer, dropBuffer_buffer]
      rw [sliceOf_self]
    · simp only [setBranch_branch, BranchInv]
      refine ⟨trivial, ?_⟩
      rw [roundTripQ_append, roundTripQ_singleton]
      rw [show tokenTextQ input
        (Token.identifier s.buffer (Location.mk s.bufStart s.bufEnd)) =
        spanOf input (Location.mk s.bufStart s.bufEnd) from rfl]
      rw [hstart, hend, spanOf_slice input hjlen hk, hbr,
        take_append_sliceOf hjk hk]
  -- String on a non-quote character: consume it.
  · rw [hb] at hbr
    simp only [BranchInv] at hbr
    obtain ⟨hj1, hquote, hrt⟩ := hbr
    refine ⟨j, k + 1, by omega, by omega, ?_, ?_, ?_, ?_, ?_⟩
    · simp [shiftForward_of_cons hc, hdrop1]
    · simp [shiftForward_of_cons hc, hstart]
    · rw [shiftForward_of_cons hc, posAfter_take_succ hdrop]
      simp [hend]
    · rw [shiftForward_of_cons hc]
      simp only [String.data_push]
      rw [hbuf, sliceOf_snoc hdrop hjk]
    · rw [show ((s.shiftForward).branch) = s.branch from by
        rw [shiftForward_of_cons hc], hb]
      simp only [BranchInv, List.append_nil]
      exact ⟨hj1, hquote, hrt⟩
  -- String on the closing quote: consume it, emit the String token.
  · rw [hb] at hbr
    simp only [BranchInv] at hbr
    obtain ⟨hj1, hquote, hrt⟩ := hbr
    refine ⟨k + 1, k + 1, le_rfl, by omega, ?_, ?_, ?_, ?_, ?_⟩
    · simp [shiftForward_of_cons hc, hdrop1]
    · simp only [setBranch_bufStart, dropBuffer_bufStart]
      rw [shiftForward_of_cons hc, posAfter_take_succ hdrop]
      simp [hend]
    · simp only [setBranch_bufEnd, dropBuffer_bufEnd]
      rw [shiftForward_of_cons hc, posAfter_take_succ hdrop]
      simp [hend]
    · simp only [setBranch_buffer, dropBuffer_buffer]
      rw [sliceOf_self]
    · simp only [setBranch_branch, BranchInv]
      refine ⟨trivial, ?_⟩
      rw [roundTripQ_append, roundTripQ_singleton]
      rw [show tokenTextQ input
        (Token.string s.buffer (s.shiftForward).location) =
        '"' :: spanOf input (s.shiftForward).location from rfl]
      have hloc : (s.shiftForward).location =
          Location.mk (posAfter (input.take j)) (posAfter (input.take (k + 1))) := by
        rw [shiftForward_of_cons hc]
        simp only [location_eq]
        rw [posAfter_take_succ hdrop, hstart, hend]
      rw [hloc, spanOf_slice input hjlen (by omega), hrt]
      rw [show input.take (j - 1) ++ '"' :: sliceOf input j (k + 1) =
        (input.take (j - 1) ++ ['"']) ++ sliceOf input j (k + 1) from by simp]
      rw [← hquote, take_append_sliceOf (by omega) (by omega)]
  -- Whitespace on whitespace: consume it.
  · rw [hb] at hbr
    simp only [BranchInv] at hbr
    refine ⟨j, k + 1, by omega, by omega, ?_, ?_, ?_, ?_, ?_⟩
    · simp [shiftForward_of_cons hc, hdrop1]
    · simp [shiftForward_of_cons hc, hstart]
    · rw [shiftForward_of_cons hc, posAfter_take_succ hdrop]
      simp [hend]
    · rw [shiftForward_of_cons hc]
      simp only [String.data_push]
      rw [hbuf, sliceOf_snoc hdrop hjk]
    · rw [show ((s.shiftForward).branch) = s.branch from by
        rw [shiftForward_of_cons hc], hb]
      simp only [BranchInv, List.append_nil]
      exact hbr
  -- Whitespace on a terminator: emit the run, do not consume.
  · rw [hb] at hbr
    simp only [BranchInv] at hbr
    refine ⟨k, k, le_rfl, hk, by simpa using hstream, ?_, by simpa using hend,
      ?_, ?_⟩
    · simp [hend]
    · simp only [setBranch_buffer, dropBuffer_buffer]
      rw [sliceOf_self]
    · simp only [setBranch_branch, BranchInv]
      refine ⟨trivial, ?_⟩
      rw [roundTripQ_append, roundTripQ_singleton]
      rw [show tokenTextQ input
        (Token.whitespace s.buffer.length (Location.mk s.bufStart s.bufEnd)) =
        spanOf input (Location.mk s.bufStart s.bufEnd) from rfl]
      rw [hstart, hend, spanOf_slice input hjlen hk, hbr,
        take_append_sliceOf hjk hk]

/-! Run coherence propagates through the whole driver loop. -/

theorem loop_runInv_aux (n : Nat) :
    ∀ (s : State), s.measure ≤ n →
      ∀ {input : List Char} {em ts : List Token} {f : State},
      RunInv input em s → loop s = (ts, .ok f) →
      RunInv input (em ++ ts) f := by
  induction n with
  | zero =>
    intro s hm input em ts f hinv h
    have hc : s.stream.chars = [] := by
      cases hl : s.stream.chars with
      | nil => rfl
      | cons c rest => have := measure_of_cons hl; omega
    have hcur : s.current = none := by rw [current_eq, hc]; rfl
    rw [loop_none hcur] at h
    injection h with h1 h2
    injection h2 with h3
    subst h3
    subst h1
    simpa using hinv
  | succ n ih =>
    intro s hm input em ts f hinv h
    cases hcur : s.current with
    | none =>
      rw [loop_none hcur] at h
      injection h with h1 h2
      injection h2 with h3
      subst h3
      subst h1
      simpa using hinv
    | some c =>
      cases hwb : s.withBranch c with
      | error e =>
        rw [loop_error hcur hwb] at h
        injection h with h1 h2
        cases h2
      | ok p =>
        obtain ⟨ts0, u⟩ := p
        rw [loop_step hcur hwb] at h
        obtain ⟨rest, hc⟩ := chars_of_current_some hcur
        have hlt := withBranch_measure_lt hc hwb
        have h2 : (loop u).2 = .ok f := by
          have := congrArg Prod.snd h
          simpa using this
        have h1 : ts = ts0 ++ (loop u).1 := by
          have := congrArg Prod.fst h
          simpa using this.symm
        have h3 : loop u = ((loop u).1, .ok f) := by rw [← h2]
        have hstep := runInv_step hinv hcur hwb
        have := ih u (by omega) hstep h3
        rw [h1, ← List.append_assoc]
        exact this

theorem loop_runInv {s : State} {input : List Char} {em ts : List Token}
    {f : State} (hinv : RunInv input em s) (h : loop s = (ts, .ok f)) :
    RunInv input (em ++ ts) f :=
  loop_runInv_aux s.measure s le_rfl hinv h

/-- A fresh run over a whole input starts coherent. -/
theorem runInv_start (input : List Char) :
    RunInv input [] (initialState.addInput ⟨input⟩) := by
  refine ⟨0, 0, le_rfl, Nat.zero_le _, rfl, rfl, rfl, rfl, ?_⟩
  exact ⟨rfl, rfl⟩

/-- A coherent residual state back in the Init branch with an exhausted
cursor has reconstructed the whole input. -/
theorem runInv_final {input : List Char} {em : List Token} {f : State}
    (hinv : RunInv input em f) (hempty : f.stream.chars = [])
    (hbr : f.branch = .init) :
    roundTripQ input em = input := by
  obtain ⟨j, k, hjk, hk, hstream, -, -, -, hbrinv⟩ := hinv
  have hlek : input.length ≤ k := by
    rw [hstream] at hempty
    exact List.drop_eq_nil_iff.mp hempty
  have hkl : k = input.length := le_antisymm hk hlek
  rw [hbr] at hbrinv
  simp only [BranchInv] at hbrinv
  obtain ⟨-, hrt⟩ := hbrinv
  rw [hrt, hkl, List.take_length]

/-- C3 counterexample: the round-trip property fails as stated. On the
three-character double-quoted input the String token's span omits the
opening quote, so the concatenated spans miss one character; and on an
input that ends inside an identifier the pending token is never emitted,
so the concatenation misses the trailing text although tokenization
reported no error. -/
theorem claim_C3_counterexample :
    ((tokenStream [some "\"x\""]).2 = none ∧
      roundTrip "\"x\"".data (tokenStream [some "\"x\""]).1 ≠ "\"x\"".data) ∧
    ((tokenStream [some "a"]).2 = none ∧
      roundTrip "a".data (tokenStream [some "a"]).1 ≠ "a".data) := by decide

/-- C3 as amended: for every input text whose single-chunk run ends
without error and with its residual state back in the Init branch (no
partially accumulated trailing token), concatenating, in emission order,
the source-text spans of Whitespace and Identifier tokens, the literal
parenthesis characters for the paren tokens, and for each String token a
literal opening quote followed by its span, reconstructs the input text
exactly; and those are exactly the tokens tokenStream delivers for the
single chunk. -/
theorem claim_C3 (input : String) {ts : List Token} {f : State}
    (h : withState initialState (withIterable input) = (ts, .ok f))
    (hbr : f.branch = .init) :
    roundTripQ input.data ts = input.data ∧
    (tokenStream [some input]).1 = ts := by
  constructor
  · have hloop : loop (initialState.addInput ⟨input.data⟩) = (ts, .ok f) := h
    have hinv := loop_runInv (runInv_start input.data) hloop
    have hempty := loop_ok_chars hloop
    have hfin := runInv_final hinv hempty hbr
    simpa using hfin
  · rw [show tokenStream [some input] = asyncLoop initialState [some input]
      from rfl]
    rw [asyncLoop_cons_ok [] h, asyncLoop_nil]
    simp

/-- C3 witness: on the parenthesized identifier input the amended
round-trip reconstructs the input exactly. -/
theorem claim_C3_witness :
    roundTripQ "(abc)".data (tokenStream [some "(abc)"]).1 = "(abc)".data := by
  have h : withState initialState (withIterable "(abc)") =
      ([Token.leftParen ⟨⟨0, 0⟩, ⟨0, 1⟩⟩,
        Token.identifier "abc" ⟨⟨0, 1⟩, ⟨0, 4⟩⟩,
        Token.rightParen ⟨⟨0, 4⟩, ⟨0, 5⟩⟩],
       .ok { stream := ⟨[]⟩, branch := .init, buffer := "",
             bufStart := ⟨0, 5⟩, bufEnd := ⟨0, 5⟩ }) := rfl
  obtain ⟨h1, h2⟩ := claim_C3 "(abc)" h rfl
  rw [h2]
  exact h1

end ProtoJo
